import Mathlib

/-!
Verification of `zhihu_scraper.py` against its natural-language specification.

Strings are modelled as `List Char` (Python `str` is a sequence of code
points).  Python integers are modelled as `Int`.  Fallible code returns
`Except`.  `while` loops are encoded with an explicit fuel counter chosen
at each call site to exceed the loop's possible number of iterations, so
the fuel-exhausted branch is unreachable on those calls; this keeps every
definition executable by kernel reduction.
-/

set_option autoImplicit false

namespace Zhihu

/-- Python's `str.isspace`/default-`strip` whitespace set, as enumerated by
CPython (all code points with the Unicode whitespace property). -/
def pyIsSpace (c : Char) : Bool :=
  c.toNat = 0x09 ∨ c.toNat = 0x0a ∨ c.toNat = 0x0b ∨ c.toNat = 0x0c ∨
  c.toNat = 0x0d ∨ c.toNat = 0x1c ∨ c.toNat = 0x1d ∨ c.toNat = 0x1e ∨
  c.toNat = 0x1f ∨ c.toNat = 0x20 ∨ c.toNat = 0x85 ∨ c.toNat = 0xa0 ∨
  c.toNat = 0x1680 ∨ (0x2000 ≤ c.toNat ∧ c.toNat ≤ 0x200a) ∨
  c.toNat = 0x2028 ∨ c.toNat = 0x2029 ∨ c.toNat = 0x202f ∨
  c.toNat = 0x205f ∨ c.toNat = 0x3000

/-- The line-boundary set of Python's `str.splitlines` (CPython's set of
line-break code points; `\r\n` is additionally treated as one boundary). -/
def isLineBreak (c : Char) : Bool :=
  c.toNat = 0x0a ∨ c.toNat = 0x0b ∨ c.toNat = 0x0c ∨ c.toNat = 0x0d ∨
  c.toNat = 0x1c ∨ c.toNat = 0x1d ∨ c.toNat = 0x1e ∨ c.toNat = 0x85 ∨
  c.toNat = 0x2028 ∨ c.toNat = 0x2029

/-- Python `str.strip()`: drop whitespace from the front, then from the back. -/
def pyStrip (l : List Char) : List Char :=
  ((l.dropWhile pyIsSpace).reverse.dropWhile pyIsSpace).reverse

/-- Python `str.splitlines()` (keepends=False).  Accumulates the current
line in reverse; `\r\n` counts as a single boundary.  `"".splitlines() = []`,
and a trailing line break does not produce a trailing empty line. -/
def splitlinesGo : List Char → List Char → List (List Char)
  | [], acc => if acc = [] then [] else [acc.reverse]
  | '\r' :: '\n' :: rest, acc => acc.reverse :: splitlinesGo rest []
  | c :: rest, acc =>
    if isLineBreak c then acc.reverse :: splitlinesGo rest []
    else splitlinesGo rest (c :: acc)

def pySplitlines (l : List Char) : List (List Char) := splitlinesGo l []

/-- Model of `chunk_text`'s `while` loop (`zhihu_scraper.py` lines 154-159):
`text[start : start + chunk_size]` is `take`, advancing `start` is `drop`.
Fuel bounds the iteration count; `chunk_text` passes `text.length`, which
suffices because each iteration consumes at least one character
(the loop is only reached with `chunk_size ≥ 1`). -/
def chunkGo (n : Nat) : Nat → List Char → List (List Char)
  | _, [] => []
  | 0, l => [l]
  | fuel + 1, c :: t => (c :: t.take (n - 1)) :: chunkGo n fuel (t.drop (n - 1))

/-- Model of `chunk_text` (`zhihu_scraper.py` lines 149-160).  Raises `ValueError`
for non-positive `chunk_size`; returns `[""]` for empty text; otherwise
slices the text into runs of `chunk_size` characters. -/
def chunk_text (text : List Char) (chunk_size : Int) : Except String (List (List Char)) :=
  if chunk_size ≤ 0 then Except.error "chunk_size must be positive"
  else if text = [] then Except.ok [[]]
  else Except.ok (chunkGo chunk_size.toNat text.length text)

/-- ASCII lowercasing of one character; Python's `str.lower()` applied to
tag names (which the tokenizer only ever builds from markup characters). -/
def asciiLower (c : Char) : Char :=
  if 'A' ≤ c ∧ c ≤ 'Z' then Char.ofNat (c.toNat + 32) else c

def lowerList (l : List Char) : List Char := l.map asciiLower

/-- Partial executable model of `html.unescape` (only called on character
data and on reconstructed `&name;`/`&#N;` references).  It decodes the
common named references and decimal/hexadecimal numeric references and
leaves everything else unchanged.  No theorem below depends on the decoded
value of any reference; the claims' inputs contain no `&` at all, on which
`html.unescape` is the identity, as is this model. -/
def namedRef (name : List Char) : Option Char :=
  if name = ('a' :: 'm' :: 'p' :: []) then some '&'
  else if name = ('l' :: 't' :: []) then some '<'
  else if name = ('g' :: 't' :: []) then some '>'
  else if name = ('q' :: 'u' :: 'o' :: 't' :: []) then some '"'
  else if name = ('a' :: 'p' :: 'o' :: 's' :: []) then some '\''
  else if name = ('n' :: 'b' :: 's' :: 'p' :: []) then some '\xa0'
  else none

def isAsciiDigit (c : Char) : Bool := '0' ≤ c ∧ c ≤ '9'

def isAsciiLetter (c : Char) : Bool := ('a' ≤ c ∧ c ≤ 'z') ∨ ('A' ≤ c ∧ c ≤ 'Z')

def isAlnum (c : Char) : Bool := isAsciiLetter c ∨ isAsciiDigit c

def decDigits (l : List Char) : Nat :=
  l.foldl (fun acc c => acc * 10 + (c.toNat - '0'.toNat)) 0

/-- One attempted reference decode after a `&`: returns the decoded text
and the remaining input on success. -/
def tryRef (rest : List Char) : Option (List Char × List Char) :=
  match rest with
  | '#' :: r =>
    let ds := r.takeWhile isAsciiDigit
    let r2 := r.dropWhile isAsciiDigit
    if ds = [] then none
    else
      let n := decDigits ds
      let out := if n.isValidChar then [Char.ofNat n] else ['�']
      match r2 with
      | ';' :: r3 => some (out, r3)
      | _ => none
  | c :: r =>
    if isAsciiLetter c then
      let nm := c :: r.takeWhile isAlnum
      let r2 := r.dropWhile isAlnum
      match r2 with
      | ';' :: r3 =>
        match namedRef nm with
        | some ch => some ([ch], r3)
        | none => none
      | _ => none
    else none
  | [] => none

def unescGo : Nat → List Char → List Char
  | 0, l => l
  | _ + 1, [] => []
  | fuel + 1, '&' :: rest =>
    match tryRef rest with
    | some (out, rest') => out ++ unescGo fuel rest'
    | none => '&' :: unescGo fuel rest
  | fuel + 1, c :: rest => c :: unescGo fuel rest

def pyUnescape (l : List Char) : List Char := unescGo l.length l

/-- Model of `TextOnlyHTMLParser._IGNORED_TAGS` (`zhihu_scraper.py` lines 53-63). -/
def IGNORED_TAGS : List (List Char) :=
  ["script", "style", "noscript", "svg", "video", "audio", "figure", "img",
   "iframe"].map String.data

/-- Model of `TextOnlyHTMLParser._BLOCK_TAGS` (`zhihu_scraper.py` lines 66-86). -/
def BLOCK_TAGS : List (List Char) :=
  ["p", "div", "section", "br", "li", "ul", "ol", "blockquote", "pre",
   "code", "h1", "h2", "h3", "h4", "h5", "h6", "table", "tr", "td"].map
    String.data

/-- The mutable state of one `TextOnlyHTMLParser` instance
(`zhihu_scraper.py` lines 88-91): the accumulated output fragments and the
count of currently-open ignored tags.  `_ignored_depth` is a Python `int`,
so it is modelled as `Int`; Python's `if self._ignored_depth:` is the
truthiness test `≠ 0`. -/
structure ParserState where
  parts : List (List Char)
  ignored_depth : Int
  deriving Repr, DecidableEq

def initState : ParserState := ⟨[], 0⟩

/-- Model of `TextOnlyHTMLParser.handle_starttag` (`zhihu_scraper.py` lines 93-100). -/
def handle_starttag (st : ParserState) (tag : List Char) : ParserState :=
  if tag ∈ IGNORED_TAGS then
    { st with ignored_depth := st.ignored_depth + 1 }
  else if st.ignored_depth ≠ 0 then st
  else if tag ∈ BLOCK_TAGS then { st with parts := st.parts ++ [['\n']] }
  else st

/-- Model of `TextOnlyHTMLParser.handle_endtag` (`zhihu_scraper.py` lines 102-109). -/
def handle_endtag (st : ParserState) (tag : List Char) : ParserState :=
  if st.ignored_depth ≠ 0 ∧ tag ∈ IGNORED_TAGS then
    { st with ignored_depth := st.ignored_depth - 1 }
  else if st.ignored_depth ≠ 0 then st
  else if tag ∈ BLOCK_TAGS then { st with parts := st.parts ++ [['\n']] }
  else st

/-- Model of `TextOnlyHTMLParser.handle_data` (`zhihu_scraper.py` lines 111-115). -/
def handle_data (st : ParserState) (data : List Char) : ParserState :=
  if st.ignored_depth ≠ 0 then st
  else if pyStrip data = [] then st
  else { st with parts := st.parts ++ [pyUnescape data] }

/-- Model of `TextOnlyHTMLParser.handle_entityref` (`zhihu_scraper.py` lines 117-120). -/
def handle_entityref (st : ParserState) (name : List Char) : ParserState :=
  if st.ignored_depth ≠ 0 then st
  else { st with parts := st.parts ++ [pyUnescape ('&' :: name ++ [';'])] }

/-- Model of `TextOnlyHTMLParser.handle_charref` (`zhihu_scraper.py` lines 122-125). -/
def handle_charref (st : ParserState) (name : List Char) : ParserState :=
  if st.ignored_depth ≠ 0 then st
  else
    { st with parts := st.parts ++ [pyUnescape ('&' :: '#' :: name ++ [';'])] }

/-- The blank-line collapsing loop of `get_text`
(`zhihu_scraper.py` lines 131-138), with the `previous_blank` flag. -/
def collapseBlanks : List (List Char) → Bool → List (List Char)
  | [], _ => []
  | line :: rest, prevBlank =>
    let isBlank := line.isEmpty
    if isBlank && prevBlank then collapseBlanks rest prevBlank
    else line :: collapseBlanks rest isBlank

/-- Model of `"\n".join(...)`. -/
def joinNL : List (List Char) → List Char
  | [] => []
  | [x] => x
  | x :: y :: r => x ++ '\n' :: joinNL (y :: r)

/-- Model of `TextOnlyHTMLParser.get_text` (`zhihu_scraper.py` lines 127-139):
join the fragments, split into lines, strip each line, collapse runs of
blank lines, rejoin with newlines, strip the whole result. -/
def get_text (parts : List (List Char)) : List Char :=
  let text := parts.flatten
  let lines := (pySplitlines text).map pyStrip
  let filtered := collapseBlanks lines false
  pyStrip (joinNL filtered)

/-!
### The tokenizer

`parse_answer_text` feeds the whole input to CPython's `html.parser.
HTMLParser` (with `convert_charrefs=False`) and closes it.  The following
is an executable model of `HTMLParser.goahead` specialised to that usage:
one pass over the whole string with `end=1` (feeding everything and then
closing is equivalent to a single `end=1` pass, because the `end=0` pass
leaves any construct it cannot finish in the buffer unprocessed).

Modelled faithfully: character data scanning, start tags, end tags
(including `endtagfind`, the tolerant name scan, `</>` and bogus
comments), the CDATA content mode entered for `script`/`style` (inside
which only a full `</ ws* elem ws* >` close is special and everything else
is character data, and unterminated content is dropped, not flushed),
named and numeric character references with their trailing-character
quirks, the `k < 0` recovery path, and the final flush.  Simplified
(documented deviations, none load-bearing for any theorem below): the
quote-aware attribute scanning of `check_for_whole_start_tag` is replaced
by a scan to the next `>`; `<!...>` declarations and `<![...]>` marked
sections are skipped to the next `>`; `tag.lower()` is ASCII lowercasing.
-/

inductive HEvent where
  | starttag (tag : List Char)
  | endtag (tag : List Char)
  | data (s : List Char)
  | entityref (name : List Char)
  | charref (name : List Char)
  deriving Repr, DecidableEq

/-- Characters allowed in a tag name after the initial letter
(`tagfind_tolerant`, the class `[^\t\n\r\f />\x00]`). -/
def tagNameChar (c : Char) : Bool :=
  ¬(c = '\t' ∨ c = '\n' ∨ c = '\r' ∨ c = '\x0c' ∨ c = ' ' ∨ c = '/' ∨
    c = '>' ∨ c = '\x00')

/-- Characters of an end-tag name (`endtagfind`, the class `[-.a-zA-Z0-9:_]`). -/
def endNameChar (c : Char) : Bool :=
  isAlnum c ∨ c = '-' ∨ c = '.' ∨ c = ':' ∨ c = '_'

/-- Characters of an entity-reference name after the initial letter
(`entityref`, the class `[-.a-zA-Z0-9]`). -/
def entNameChar (c : Char) : Bool := isAlnum c ∨ c = '-' ∨ c = '.'

def isHexDigit (c : Char) : Bool :=
  isAsciiDigit c ∨ ('a' ≤ c ∧ c ≤ 'f') ∨ ('A' ≤ c ∧ c ≤ 'F')

/-- Does the second list begin with the first, ASCII-case-insensitively?
(Models the `re.I` matching of the CDATA close pattern.) -/
def ciBegins : List Char → List Char → Bool
  | [], _ => true
  | _, [] => false
  | a :: xs, b :: ys => (asciiLower a = asciiLower b) && ciBegins xs ys

/-- Does `l` begin with `</ ws* elem ws* >` (case-insensitively)?  This is
the `interesting` pattern installed by `set_cdata_mode`. -/
def closeMatch (elem : List Char) (l : List Char) : Bool :=
  match l with
  | '<' :: '/' :: r =>
    let r1 := r.dropWhile pyIsSpace
    ciBegins elem r1 &&
      (match (r1.drop elem.length).dropWhile pyIsSpace with
       | '>' :: _ => true
       | _ => false)
  | _ => false

/-- Index of the first CDATA close-tag match in `l`, if any. -/
def findCloseIdx (elem : List Char) : List Char → Option Nat
  | [] => none
  | c :: r =>
    if closeMatch elem (c :: r) then some 0
    else (findCloseIdx elem r).map (· + 1)

/-- Model of `endtagfind.match` after the leading `</`: `ws* name ws* >`.  Returns
the name and the remaining input after the `>`. -/
def endTagFind (t : List Char) : Option (List Char × List Char) :=
  match t.dropWhile pyIsSpace with
  | c :: r =>
    if isAsciiLetter c then
      let nm := c :: r.takeWhile endNameChar
      match (r.dropWhile endNameChar).dropWhile pyIsSpace with
      | '>' :: r3 => some (nm, r3)
      | _ => none
    else none
  | [] => none

/-- One iteration's result: emitted events, remaining input, CDATA element. -/
def StepResult : Type := List HEvent × List Char × Option (List Char)

/-- The `k < 0` recovery of `goahead` with `end=1` for a construct opened
by the `<` preceding `t`: emit up to and including the next `>`, else up
to the next `<`, else just the `<`. -/
def recoveryStep (t : List Char) : StepResult :=
  match t.findIdx? (fun c => c = '>') with
  | some g => ([HEvent.data ('<' :: t.take (g + 1))], t.drop (g + 1), none)
  | none =>
    match t.findIdx? (fun c => c = '<') with
    | some k => ([HEvent.data ('<' :: t.take k)], t.drop k, none)
    | none => ([HEvent.data ['<']], t, none)

/-- Model of `parse_starttag` on input `'<' :: c :: r` with `c` a letter, with the
attribute region simplified to everything up to the next `>`.  A trailing
`/` makes it a `handle_startendtag`, whose default implementation calls
`handle_starttag` then `handle_endtag`; otherwise a `script`/`style` tag
enters CDATA mode. -/
def startTagStep (c : Char) (r : List Char) : StepResult :=
  match (c :: r).findIdx? (fun x => x = '>') with
  | none => recoveryStep (c :: r)
  | some g =>
    let tag := lowerList (c :: r.takeWhile tagNameChar)
    let inner := (c :: r).take g
    let rest' := (c :: r).drop (g + 1)
    if inner.getLast? = some '/' then
      ([HEvent.starttag tag, HEvent.endtag tag], rest', none)
    else
      ([HEvent.starttag tag], rest',
        if tag = "script".data ∨ tag = "style".data then some tag else none)

/-- Model of `parse_endtag` on input `'<' :: '/' :: t` (CPython lines 378-415).
In CDATA mode a close tag whose name differs from the CDATA element — or
that does not parse as an end tag at all — is character data up to and
including the first `>`. -/
def endTagStep (cdata : Option (List Char)) (t : List Char) : StepResult :=
  match t.findIdx? (fun x => x = '>') with
  | none => recoveryStep ('/' :: t)
  | some g =>
    match endTagFind t with
    | some (nm, r4) =>
      let elem := lowerList nm
      match cdata with
      | some ce =>
        if elem = ce then ([HEvent.endtag elem], r4, none)
        else
          ([HEvent.data ('<' :: '/' :: t.take (g + 1))], t.drop (g + 1),
            some ce)
      | none => ([HEvent.endtag elem], r4, none)
    | none =>
      match cdata with
      | some ce =>
        ([HEvent.data ('<' :: '/' :: t.take (g + 1))], t.drop (g + 1),
          some ce)
      | none =>
        match t with
        | '>' :: r4 => ([], r4, none)
        | c :: r =>
          if isAsciiLetter c then
            let nm := lowerList (c :: r.takeWhile tagNameChar)
            let afterName := r.dropWhile tagNameChar
            match afterName.findIdx? (fun x => x = '>') with
            | some g2 => ([HEvent.endtag nm], afterName.drop (g2 + 1), none)
            | none => ([HEvent.endtag nm], [], none)
          else ([], t.drop (g + 1), none)
        | [] => ([], [], none)

/-- Does `l` begin with the comment terminator `--\s*>`?  Returns the
match length. -/
def commentCloseAt (l : List Char) : Option Nat :=
  match l with
  | '-' :: '-' :: r =>
    let ws := r.takeWhile pyIsSpace
    match r.dropWhile pyIsSpace with
    | '>' :: _ => some (2 + ws.length + 1)
    | _ => none
  | _ => none

def findCommentClose : List Char → Option (Nat × Nat)
  | [] => none
  | c :: r =>
    match commentCloseAt (c :: r) with
    | some len => some (0, len)
    | none => (findCommentClose r).map (fun p => (p.1 + 1, p.2))

/-- Model of `parse_comment` on the text `r` after `<!--`; `handle_comment` is not
overridden by `TextOnlyHTMLParser`, so no event is emitted. -/
def commentStep (r : List Char) : StepResult :=
  match findCommentClose r with
  | some (j, len) => ([], r.drop (j + len), none)
  | none => recoveryStep ('!' :: '-' :: '-' :: r)

/-- Model of `parse_pi` on the text `r` after `<?`: skip past the next `>`. -/
def piStep (r : List Char) : StepResult :=
  match r.findIdx? (fun x => x = '>') with
  | some g => ([], r.drop (g + 1), none)
  | none => recoveryStep ('?' :: r)

/-- Model of `parse_html_declaration` on the text `r` after `<!` (simplified to a
skip past the next `>`; doctypes, marked sections and bogus comments all
produce no events for this subclass). -/
def declStep (r : List Char) : StepResult :=
  match r.findIdx? (fun x => x = '>') with
  | some g => ([], r.drop (g + 1), none)
  | none => recoveryStep ('!' :: r)

/-- The `&#` branch of `goahead` with the `charref` pattern
`&#(?:[0-9]+|[xX][0-9a-fA-F]+)[^0-9a-fA-F]`: the trailing character is
consumed only when it is `;`; on no match the parser consumes `&#` when a
`;` lies ahead and then stops, flushing the remainder as data. -/
def charrefStep (r : List Char) : StepResult :=
  let m : Option (List Char × List Char) :=
    match r with
    | x :: r2 =>
      if x = 'x' ∨ x = 'X' then
        let ds := r2.takeWhile isHexDigit
        match r2.dropWhile isHexDigit with
        | c :: r3 => if ds = [] then none else some (x :: ds, c :: r3)
        | [] => none
      else
        let ds := r.takeWhile isAsciiDigit
        match r.dropWhile isAsciiDigit with
        | c :: r3 => if ds = [] ∨ isHexDigit c then none else some (ds, c :: r3)
        | [] => none
    | [] => none
  match m with
  | some (nm, c :: r3) =>
    if c = ';' then ([HEvent.charref nm], r3, none)
    else ([HEvent.charref nm], c :: r3, none)
  | some (nm, []) => ([HEvent.charref nm], [], none)
  | none =>
    if r.contains ';' then
      ([HEvent.data ['&', '#'], HEvent.data r], [], none)
    else ([HEvent.data ('&' :: '#' :: r)], [], none)

/-- The `&` branch of `goahead` with the `entityref` pattern
`&([a-zA-Z][-.a-zA-Z0-9]*)[^a-zA-Z0-9]` (trailing character consumed only
when `;`), including the backtracking at end of input and the `incomplete`
quirk that drops a lone `&x`'s ampersand. -/
def entityStep (r : List Char) : StepResult :=
  match r with
  | c :: r2 =>
    if isAsciiLetter c then
      let nm := c :: r2.takeWhile entNameChar
      match r2.dropWhile entNameChar with
      | t :: r3 =>
        if t = ';' then ([HEvent.entityref nm], r3, none)
        else ([HEvent.entityref nm], t :: r3, none)
      | [] =>
        match nm.getLast? with
        | some lc =>
          if lc = '-' ∨ lc = '.' then ([HEvent.entityref nm.dropLast], [lc], none)
          else if nm.length = 1 then ([HEvent.data [c]], [], none)
          else ([HEvent.data ('&' :: nm)], [], none)
        | none => ([HEvent.data ['&']], [], none)
    else ([HEvent.data ['&']], c :: r2, none)
  | [] => ([HEvent.data ['&']], [], none)

def notInteresting (c : Char) : Bool := ¬(c = '<' ∨ c = '&')

/-- One iteration of the `goahead` loop: scan up to the next interesting
position (`[&<]` normally, the close tag of the CDATA element in CDATA
mode), emit that stretch as data, then handle the construct there.
In CDATA mode with no close tag ahead the rest is dropped (the final
flush of `goahead` is suppressed while `cdata_elem` is set). -/
def dispatch : Option (List Char) → List Char → StepResult
  | some elem, rest =>
    match findCloseIdx elem rest with
    | none => ([], [], some elem)
    | some j =>
      let dat := rest.take j
      let s :=
        match rest.drop j with
        | '<' :: '/' :: t => endTagStep (some elem) t
        | _ => ([], [], some elem)
      ((if dat = [] then [] else [HEvent.data dat]) ++ s.1, s.2.1, s.2.2)
  | none, rest =>
    let dat := rest.takeWhile notInteresting
    let s :=
      match rest.dropWhile notInteresting with
      | [] => ([], [], none)
      | '<' :: '!' :: '-' :: '-' :: r => commentStep r
      | '<' :: '/' :: t => endTagStep none t
      | '<' :: '?' :: r => piStep r
      | '<' :: '!' :: r => declStep r
      | '<' :: c :: r =>
        if isAsciiLetter c then startTagStep c r
        else ([HEvent.data ['<']], c :: r, none)
      | ['<'] => ([HEvent.data ['<']], [], none)
      | '&' :: '#' :: r => charrefStep r
      | '&' :: r => entityStep r
      | other => ([HEvent.data other], [], none)
    ((if dat = [] then [] else [HEvent.data dat]) ++ s.1, s.2.1, s.2.2)

/-- The `goahead` loop with `end=1`.  Every iteration consumes at least
one character, so the fuel passed by `tokenize` makes the fuel-exhausted
branch unreachable; it mirrors the final flush for definiteness. -/
def goahead : Nat → Option (List Char) → List Char → List HEvent
  | 0, cdata, rest => if rest = [] ∨ cdata.isSome then [] else [HEvent.data rest]
  | fuel + 1, cdata, rest =>
    if rest = [] then []
    else
      let s := dispatch cdata rest
      s.1 ++ goahead fuel s.2.2 s.2.1

/-- Model of `parser.feed(html); parser.close()` — the raw event stream. -/
def tokenize (s : List Char) : List HEvent := goahead (s.length + 1) none s

/-- Dispatching one event to the `TextOnlyHTMLParser` handlers. -/
def applyEvent (st : ParserState) : HEvent → ParserState
  | HEvent.starttag t => handle_starttag st t
  | HEvent.endtag t => handle_endtag st t
  | HEvent.data s => handle_data st s
  | HEvent.entityref n => handle_entityref st n
  | HEvent.charref n => handle_charref st n

def runEvents (evs : List HEvent) : ParserState := evs.foldl applyEvent initState

/-- Model of `parse_answer_text` (`zhihu_scraper.py` lines 142-146). -/
def parse_answer_text (html : List Char) : List Char :=
  get_text (runEvents (tokenize html)).parts

/-!
### The pagination client and the record pipeline

`fetch_answers` is a generator issuing one HTTP request per page.  The
transport is abstracted as a pure function from the request's `offset`
and `limit` query parameters to the decoded JSON payload (the claims under
consideration concern only successful transports).  The generator's
observable behaviour is a trace of request and yield events; the CSV
writer consumes the yields one at a time, which fixes the interleaving.
-/

/-- Model of `AnswerRecord` (`zhihu_scraper.py` lines 34-41). -/
structure AnswerRecord where
  author_name : List Char
  voteup_count : Int
  favlists_count : Int
  content_text : List Char
  deriving Repr, DecidableEq

/-- A raw answer object from the JSON `data` array.  `none` models an
absent key (`dict.get`); `author` is `none` when the `author` field is
missing or falsy, `name` likewise inside it. -/
structure RawAnswer where
  author : Option (Option (List Char))
  voteup_count : Option Int
  favlists_count : Option Int
  content : Option (List Char)
  deriving Repr, DecidableEq

/-- The decoded JSON page: the `data` array and `paging.is_end`. -/
structure Payload where
  data : List RawAnswer
  is_end : Bool

/-- The anonymous-author placeholder `"匿名用户"`. -/
def ANON : List Char := "匿名用户".data

/-- The per-record assembly in `fetch_answers`' inner loop
(`zhihu_scraper.py` lines 215-227): `answer.get("author") or {}`, then
`author.get("name") or "匿名用户"`, `int(answer.get("voteup_count", 0))`,
`int(answer.get("favlists_count", 0))`, `answer.get("content") or ""`
fed to `parse_answer_text`. -/
def toRecord (a : RawAnswer) : AnswerRecord :=
  let author_name :=
    match a.author with
    | none => ANON
    | some nameField =>
      match nameField with
      | none => ANON
      | some s => if s = [] then ANON else s
  { author_name := author_name
    voteup_count := a.voteup_count.getD 0
    favlists_count := a.favlists_count.getD 0
    content_text := parse_answer_text (a.content.getD []) }

/-- One observable step of the `fetch_answers` generator: an HTTP request
carrying its `offset` and `limit` query parameters, or a yielded record. -/
inductive FEvent where
  | req (offset : Nat) (pagesize : Nat)
  | yielded (r : AnswerRecord)
  deriving Repr, DecidableEq

def DEFAULT_PAGE_SIZE : Nat := 20

/-- The `for answer in answers:` loop (`zhihu_scraper.py` lines 215-230):
yield each record, incrementing `collected`, breaking once
`collected >= limit`.  Returns the yield events and the new `collected`. -/
def pageYields : List RawAnswer → Nat → Nat → List FEvent × Nat
  | [], c, _ => ([], c)
  | a :: rest, c, limit =>
    let c' := c + 1
    if limit ≤ c' then ([FEvent.yielded (toRecord a)], c')
    else
      let p := pageYields rest c' limit
      (FEvent.yielded (toRecord a) :: p.1, p.2)

/-- The `while collected < limit:` loop of `fetch_answers`
(`zhihu_scraper.py` lines 190-237): request a page of
`min(DEFAULT_PAGE_SIZE, limit - collected)` records at `offset`; stop
after the request when the page is empty; yield; stop when `paging.is_end`
is set; otherwise advance `offset` and loop.  Fuel bounds the iteration
count; `fetch_answers` passes `limit + 1`, which suffices because every
iteration that recurses has yielded at least one record. -/
def fetchGo (server : Nat → Nat → Payload) (limit : Nat) :
    Nat → Nat → Nat → List FEvent
  | 0, _, _ => []
  | fuel + 1, c, o =>
    if c < limit then
      let cl := min DEFAULT_PAGE_SIZE (limit - c)
      let p := server o cl
      FEvent.req o cl ::
        (if p.data = [] then []
         else
           let y := pageYields p.data c limit
           y.1 ++ (if p.is_end then [] else fetchGo server limit fuel y.2 (o + cl)))
    else []

/-- The observable trace of `fetch_answers(question_id, limit)` against a
given transport (`zhihu_scraper.py` lines 177-237). -/
def fetch_answers (server : Nat → Nat → Payload) (limit : Nat) : List FEvent :=
  fetchGo server limit (limit + 1) 0 0

def isYield : FEvent → Bool
  | FEvent.yielded _ => true
  | FEvent.req _ _ => false

/-- The records yielded along a trace. -/
def yieldCount (evs : List FEvent) : Nat := (evs.filter isYield).length

/-- The `(offset, limit)` query parameters of the requests of a trace, in
order. -/
def reqList : List FEvent → List (Nat × Nat)
  | [] => []
  | FEvent.req o l :: rest => (o, l) :: reqList rest
  | FEvent.yielded _ :: rest => reqList rest

/-- One observable step of `main`: a network request, a written CSV row,
or the fatal error aborting the run. -/
inductive PEvent where
  | request (offset : Nat) (pagesize : Nat)
  | row (r : AnswerRecord) (chunks : List (List Char))
  | fatal (msg : String)
  deriving Repr, DecidableEq

/-- Model of `write_answers_to_csv` consuming the lazy `fetch_answers` generator
(`zhihu_scraper.py` lines 240-253 driven by lines 299-307): the generator
runs exactly until its next yield, so requests and rows interleave in
trace order; the first `chunk_text` failure propagates and aborts the
whole run, issuing no further requests and writing no further rows. -/
def pipeEvents (chunk_size : Int) : List FEvent → List PEvent
  | [] => []
  | FEvent.req o l :: rest => PEvent.request o l :: pipeEvents chunk_size rest
  | FEvent.yielded r :: rest =>
    match chunk_text r.content_text chunk_size with
    | Except.error m => [PEvent.fatal m]
    | Except.ok cs => PEvent.row r cs :: pipeEvents chunk_size rest

/-- The observable trace of one `main` run (fetch streamed into the CSV
writer). -/
def runMain (server : Nat → Nat → Payload) (limit : Nat) (chunk_size : Int) :
    List PEvent :=
  pipeEvents chunk_size (fetch_answers server limit)

/-- A transport with unlimited data: every request is answered with a full
page of `limit`-many blank records and `is_end` false. -/
def unlimitedServer : Nat → Nat → Payload :=
  fun _ cl => ⟨List.replicate cl ⟨none, none, none, none⟩, false⟩

/-- A transport holding exactly 40 records: pages of 20 at offsets 0 and
20, an empty page from offset 40 on, `is_end` never set. -/
def server40 : Nat → Nat → Payload :=
  fun o _ =>
    if o < 40 then ⟨List.replicate 20 ⟨none, none, none, none⟩, false⟩
    else ⟨[], false⟩

/-- A transport whose first page holds a single record. -/
def oneRecordServer : Nat → Nat → Payload :=
  fun _ _ => ⟨[⟨none, none, none, none⟩], true⟩

/-!
### Observation functions

Used only to state properties of the extractor's output: the decomposition
of a string into its newline-separated lines, and the absence of two
adjacent blank lines in such a decomposition.
-/

/-- Split on `'\n'` exactly, keeping empty segments (`s.split("\n")`). -/
def splitOnNL : List Char → List (List Char)
  | [] => [[]]
  | c :: r =>
    if c = '\n' then [] :: splitOnNL r
    else
      match splitOnNL r with
      | [] => [[c]]
      | line :: rest => (c :: line) :: rest

/-- No two adjacent elements are both empty. -/
def noAdjBlank : List (List Char) → Bool
  | [] => true
  | [_] => true
  | a :: b :: r => !(a.isEmpty && b.isEmpty) && noAdjBlank (b :: r)

/-- Is the first character whitespace? -/
def headSpace : List Char → Bool
  | [] => false
  | c :: _ => pyIsSpace c

/-- Is the first element an empty line? -/
def headBlank : List (List Char) → Bool
  | [] => false
  | x :: _ => x.isEmpty

/-- Strip trailing whitespace only. -/
def rstrip (l : List Char) : List Char := (l.reverse.dropWhile pyIsSpace).reverse

/-- Remove one leading empty line, if any. -/
def dropLeadBlank : List (List Char) → List (List Char)
  | [] :: r => r
  | l => l

/-- Remove one trailing empty line, if any. -/
def dropTrailBlank : List (List Char) → List (List Char)
  | [] => []
  | [x] => if x.isEmpty then [] else [x]
  | x :: y :: r => x :: dropTrailBlank (y :: r)

/-! ### The Chunker (claims C1 and C8) -/

theorem chunkGo_ne_nil (n fuel : Nat) (t : List Char) (ht : t ≠ []) :
    chunkGo n fuel t ≠ [] := by
  cases fuel with
  | zero => cases t with
    | nil => exact absurd rfl ht
    | cons c r => simp [chunkGo]
  | succ fuel => cases t with
    | nil => exact absurd rfl ht
    | cons c r => simp [chunkGo]

theorem chunkGo_flatten (n : Nat) :
    ∀ (fuel : Nat) (t : List Char), (chunkGo n fuel t).flatten = t := by
  intro fuel
  induction fuel with
  | zero => intro t; cases t <;> simp [chunkGo]
  | succ fuel ih =>
    intro t
    cases t with
    | nil => simp [chunkGo]
    | cons c r => simp [chunkGo, ih, List.take_append_drop]

theorem chunkGo_lengths (n : Nat) (hn : 1 ≤ n) :
    ∀ (fuel : Nat) (t : List Char), t.length ≤ fuel → t ≠ [] →
      (∀ c ∈ (chunkGo n fuel t).dropLast, c.length = n) ∧
      (∀ lst ∈ (chunkGo n fuel t).getLast?,
        1 ≤ lst.length ∧ lst.length ≤ n) := by
  intro fuel
  induction fuel with
  | zero =>
    intro t hlen ht
    exact absurd (List.length_eq_zero.mp (Nat.le_zero.mp hlen)) ht
  | succ fuel ih =>
    intro t hlen ht
    match t with
    | c :: r =>
      have heq : chunkGo n (fuel + 1) (c :: r) =
          (c :: r.take (n - 1)) :: chunkGo n fuel (r.drop (n - 1)) := rfl
      by_cases hr : r.drop (n - 1) = []
      · have hrl : r.length ≤ n - 1 := by
          have := congrArg List.length hr
          simp only [List.length_drop, List.length_nil] at this
          omega
        have htake : r.take (n - 1) = r := List.take_of_length_le hrl
        rw [heq, hr, htake]
        refine ⟨by simp [chunkGo], ?_⟩
        intro lst hlst
        simp [chunkGo, List.getLast?] at hlst
        subst hlst
        simp only [List.length_cons]
        omega
      · have hrl : n - 1 < r.length := by
          by_contra hcon
          exact hr (List.drop_eq_nil_of_le (Nat.le_of_not_lt hcon))
        have hlen' : (r.drop (n - 1)).length ≤ fuel := by
          simp only [List.length_drop]
          simp only [List.length_cons] at hlen
          omega
        obtain ⟨ihdrop, ihlast⟩ := ih (r.drop (n - 1)) hlen' hr
        have hne := chunkGo_ne_nil n fuel (r.drop (n - 1)) hr
        match hq : chunkGo n fuel (r.drop (n - 1)) with
        | [] => exact absurd hq hne
        | q :: qs =>
          rw [heq, hq]
          rw [hq] at ihdrop ihlast
          constructor
          · intro x hx
            simp only [List.dropLast_cons₂] at hx
            rcases List.mem_cons.mp hx with hx | hx
            · subst hx
              simp only [List.length_cons, List.length_take]
              omega
            · exact ihdrop x hx
          · intro lst hlst
            rw [List.getLast?_cons_cons] at hlst
            exact ihlast lst hlst

/-- C1 — Chunker round-trip: for positive `chunk_size`, `chunk_text`
succeeds, its chunks concatenate back to the input, every chunk except
possibly the last has length exactly `chunk_size`, the last chunk has
length in `[1, chunk_size]` when the input is non-empty, and the empty
input yields exactly `[""]`. -/
theorem chunk_roundtrip (s : List Char) (n : Int) (hn : 0 < n) :
    ∃ cs, chunk_text s n = Except.ok cs ∧ cs.flatten = s ∧ cs ≠ [] ∧
      (∀ c ∈ cs.dropLast, c.length = n.toNat) ∧
      (s ≠ [] → ∀ lst ∈ cs.getLast?, 1 ≤ lst.length ∧ lst.length ≤ n.toNat) ∧
      (s = [] → cs = [[]]) := by
  have hng : ¬ n ≤ 0 := Int.not_le.mpr hn
  by_cases hs : s = []
  · refine ⟨[[]], ?_, ?_, ?_, ?_, ?_, ?_⟩ <;> simp [chunk_text, hng, hs]
  · have hn1 : 1 ≤ n.toNat := by omega
    refine ⟨chunkGo n.toNat s.length s, ?_, ?_, ?_, ?_, ?_, ?_⟩
    · simp [chunk_text, hng, hs]
    · exact chunkGo_flatten n.toNat s.length s
    · exact chunkGo_ne_nil n.toNat s.length s hs
    · exact (chunkGo_lengths n.toNat hn1 s.length s (Nat.le_refl _) hs).1
    · intro _
      exact (chunkGo_lengths n.toNat hn1 s.length s (Nat.le_refl _) hs).2
    · intro h
      exact absurd h hs

theorem chunk_roundtrip_witness :
    ∃ cs, chunk_text ("abcde".data) 3 = Except.ok cs ∧
      cs.flatten = "abcde".data ∧ cs ≠ [] ∧
      (∀ c ∈ cs.dropLast, c.length = (3 : Int).toNat) ∧
      ("abcde".data ≠ [] →
        ∀ lst ∈ cs.getLast?, 1 ≤ lst.length ∧ lst.length ≤ (3 : Int).toNat) ∧
      ("abcde".data = [] → cs = [[]]) :=
  chunk_roundtrip ("abcde".data) 3 (by decide)

/-- C8, counterexample — with a transport holding one record and
`chunk_size = 0`, the run's trace begins with a network request and only
then reports the configuration error: the error is *not* reported before
network activity begins, because `fetch_answers` is a lazy generator and
`chunk_text` is first called while writing the first record. -/
theorem chunk_failfast_cex :
    runMain oneRecordServer 1 0 =
      [PEvent.request 0 1, PEvent.fatal "chunk_size must be positive"] := by
  decide

/-- C8, amended — `chunk_text` itself fails fast: for every text and every
`chunk_size ≤ 0` it raises `ValueError` immediately, never clamping and
producing no chunk sequence; but the error surfaces only at the first
`chunk_text` call during CSV writing, which happens after the first page
request has been issued. -/
theorem chunk_failfast_amended :
    (∀ (text : List Char) (n : Int), n ≤ 0 →
      chunk_text text n = Except.error "chunk_size must be positive") ∧
    runMain oneRecordServer 1 0 =
      [PEvent.request 0 1, PEvent.fatal "chunk_size must be positive"] := by
  refine ⟨fun text n hn => ?_, by decide⟩
  simp [chunk_text, hn]

theorem chunk_failfast_amended_witness :
    chunk_text ("a".data) 0 = Except.error "chunk_size must be positive" :=
  chunk_failfast_amended.1 ("a".data) 0 (by decide)

/-! ### The record pipeline (claim C9) -/

/-- C9, counterexample — a raw record whose `voteup_count` field holds a
negative integer produces an `AnswerRecord` with a negative
`voteup_count`: `int(...)` passes the value through without clamping, so
the claim's "always non-negative" fails. -/
theorem record_defaulting_cex :
    (toRecord ⟨none, some (-1), none, none⟩).voteup_count = -1 ∧
    ¬ 0 ≤ (toRecord ⟨none, some (-1), none, none⟩).voteup_count := by
  decide

/-- C9, amended — the author name falls back to the placeholder whenever
the author identity is absent or empty; `voteup_count` and
`favlists_count` default to `0` when missing and are otherwise passed
through unchanged (hence non-negative exactly when the server's values
are), and record assembly never fails. -/
theorem record_defaulting_amended :
    ∀ a : RawAnswer,
      (a.author = none → (toRecord a).author_name = ANON) ∧
      (a.author = some none → (toRecord a).author_name = ANON) ∧
      (a.author = some (some []) → (toRecord a).author_name = ANON) ∧
      (∀ s, s ≠ [] → a.author = some (some s) →
        (toRecord a).author_name = s) ∧
      (toRecord a).voteup_count = a.voteup_count.getD 0 ∧
      (toRecord a).favlists_count = a.favlists_count.getD 0 ∧
      (a.voteup_count = none → (toRecord a).voteup_count = 0) ∧
      (a.favlists_count = none → (toRecord a).favlists_count = 0) ∧
      (0 ≤ a.voteup_count.getD 0 → 0 ≤ (toRecord a).voteup_count) ∧
      (0 ≤ a.favlists_count.getD 0 → 0 ≤ (toRecord a).favlists_count) := by
  intro a
  refine ⟨?_, ?_, ?_, ?_, ?_, ?_, ?_, ?_, ?_, ?_⟩
  · intro h; simp [toRecord, h]
  · intro h; simp [toRecord, h]
  · intro h; simp [toRecord, h]
  · intro s hs h; simp [toRecord, h, hs]
  · rfl
  · rfl
  · intro h; simp [toRecord, h]
  · intro h; simp [toRecord, h]
  · intro h; simpa [toRecord] using h
  · intro h; simpa [toRecord] using h

theorem record_defaulting_amended_witness :
    (toRecord ⟨none, none, none, none⟩).author_name = ANON :=
  (record_defaulting_amended ⟨none, none, none, none⟩).1 rfl

/-! ### The suppression-depth invariant (claim C5) -/

theorem applyEvent_depth_nonneg (st : ParserState) (ev : HEvent)
    (h : 0 ≤ st.ignored_depth) : 0 ≤ (applyEvent st ev).ignored_depth := by
  cases ev <;>
    simp only [applyEvent, handle_starttag, handle_endtag, handle_data,
      handle_entityref, handle_charref] <;>
    split_ifs <;> simp_all <;> omega

theorem foldl_depth_nonneg (evs : List HEvent) :
    ∀ st : ParserState, 0 ≤ st.ignored_depth →
      0 ≤ (evs.foldl applyEvent st).ignored_depth := by
  induction evs with
  | nil => intro st h; exact h
  | cons ev rest ih =>
    intro st h
    exact ih (applyEvent st ev) (applyEvent_depth_nonneg st ev h)

/-- C5 — Suppression-depth invariant: the depth is never negative after
any event sequence; every handler preserves non-negativity; a start tag
of an ignored element increments the depth by exactly one; an end tag of
an ignored element at positive depth decrements it by exactly one; and
any end tag arriving at depth zero leaves the depth at zero. -/
theorem suppression_depth_invariant :
    (∀ evs : List HEvent, 0 ≤ (runEvents evs).ignored_depth) ∧
    (∀ (st : ParserState) (ev : HEvent), 0 ≤ st.ignored_depth →
      0 ≤ (applyEvent st ev).ignored_depth) ∧
    (∀ (st : ParserState) (tag : List Char), tag ∈ IGNORED_TAGS →
      (handle_starttag st tag).ignored_depth = st.ignored_depth + 1) ∧
    (∀ (st : ParserState) (tag : List Char), tag ∈ IGNORED_TAGS →
      0 < st.ignored_depth →
      (handle_endtag st tag).ignored_depth = st.ignored_depth - 1) ∧
    (∀ (st : ParserState) (tag : List Char), st.ignored_depth = 0 →
      (handle_endtag st tag).ignored_depth = 0) := by
  refine ⟨?_, applyEvent_depth_nonneg, ?_, ?_, ?_⟩
  · intro evs
    exact foldl_depth_nonneg evs initState (by simp [initState])
  · intro st tag htag
    simp [handle_starttag, htag]
  · intro st tag htag hpos
    have hne : st.ignored_depth ≠ 0 := by omega
    simp [handle_endtag, htag, hne]
  · intro st tag h0
    simp only [handle_endtag, h0]
    split_ifs <;> simp_all

theorem suppression_depth_invariant_witness :
    (handle_starttag initState ("script".data)).ignored_depth =
      initState.ignored_depth + 1 :=
  suppression_depth_invariant.2.2.1 initState ("script".data) (by decide)

/-! ### Extractor suppression (claims C2 and C10) -/

/-- C2, counterexample — for the nested input
`"<script><script>x</script>y</script>keep"` the extractor returns
`"ykeep"`: the `y` leaks into the output, because `HTMLParser` treats
`script` content as CDATA that ends at the *first* `</script>`, so the
claim that neither `x` nor `y` appears is false. -/
theorem extractor_suppression_cex :
    parse_answer_text ("<script><script>x</script>y</script>keep".data) =
      "ykeep".data ∧
    'y' ∈ parse_answer_text
      ("<script><script>x</script>y</script>keep".data) := by
  constructor <;> decide

/-- C2, amended — character data, entity references and character
references delivered while the suppression depth is non-zero leave the
state unchanged, so they never appear in the output;
`"<script>evil()</script>keep"` yields `"keep"`; for the nested input the
first `</script>` already ends the CDATA content of the outer `script`,
so `x` is suppressed but `y` leaks: the output is `"ykeep"`, and the
extractor does not raise. -/
theorem extractor_suppression_amended :
    (∀ (st : ParserState) (s : List Char), st.ignored_depth ≠ 0 →
      handle_data st s = st) ∧
    (∀ (st : ParserState) (name : List Char), st.ignored_depth ≠ 0 →
      handle_entityref st name = st) ∧
    (∀ (st : ParserState) (name : List Char), st.ignored_depth ≠ 0 →
      handle_charref st name = st) ∧
    parse_answer_text ("<script>evil()</script>keep".data) = "keep".data ∧
    parse_answer_text ("<script><script>x</script>y</script>keep".data) =
      "ykeep".data ∧
    'x' ∉ parse_answer_text
      ("<script><script>x</script>y</script>keep".data) := by
  refine ⟨fun st s h => ?_, fun st name h => ?_, fun st name h => ?_,
    by decide, by decide, by decide⟩
  · simp [handle_data, h]
  · simp [handle_entityref, h]
  · simp [handle_charref, h]

theorem extractor_suppression_amended_witness :
    handle_data ⟨[], 1⟩ ("x".data) = ⟨[], 1⟩ :=
  extractor_suppression_amended.1 ⟨[], 1⟩ ("x".data) (by decide)

/-- C10, counterexample — for the input `"<script></img>x</script>"` the
extractor returns the empty string and `x` does **not** appear: inside
`script` CDATA content the tokenizer never delivers an `</img>` end-tag
event (the text up to the first `</script>` is character data), so the
suppression opened by `<script>` is not ended by `</img>`. -/
theorem ignored_endtag_cex :
    parse_answer_text ("<script></img>x</script>".data) = [] ∧
    'x' ∉ parse_answer_text ("<script></img>x</script>".data) ∧
    tokenize ("<script></img>x</script>".data) =
      [HEvent.starttag ("script".data), HEvent.data ("</img>x".data),
        HEvent.endtag ("script".data)] := by
  refine ⟨by decide, by decide, by decide⟩

/-- C10, amended — at the handler level, any end tag whose name is in the
ignored set decrements a positive suppression depth by one, even when it
is not the tag that opened the suppression; but for the input
`"<script></img>x</script>"` no `</img>` end-tag event is ever delivered
(the tokenizer treats `script` content as CDATA up to the first
`</script>`), so the suppression persists and the output is empty. -/
theorem ignored_endtag_amended :
    (∀ (st : ParserState) (tag : List Char), 0 < st.ignored_depth →
      tag ∈ IGNORED_TAGS →
      (handle_endtag st tag).ignored_depth = st.ignored_depth - 1) ∧
    parse_answer_text ("<script></img>x</script>".data) = [] := by
  refine ⟨fun st tag hpos htag => ?_, by decide⟩
  have hne : st.ignored_depth ≠ 0 := by omega
  simp [handle_endtag, htag, hne]

theorem ignored_endtag_amended_witness :
    (handle_endtag ⟨[], 1⟩ ("img".data)).ignored_depth = 1 - 1 :=
  ignored_endtag_amended.1 ⟨[], 1⟩ ("img".data) (by decide) (by decide)

/-! ### Block newlines on the concrete example (claim C3) -/

/-- C3, counterexample — `parse_answer_text("<p>a</p><p>b</p>")` returns
`"a\n\nb"`, not `"a\nb"`: the middle two of the four block-boundary
newlines survive as a single blank line between the paragraphs. -/
theorem block_newlines_cex :
    parse_answer_text ("<p>a</p><p>b</p>".data) = "a\n\nb".data ∧
    parse_answer_text ("<p>a</p><p>b</p>".data) ≠ "a\nb".data := by
  constructor <;> decide

/-- C3, amended — the two opening and two closing `p` tags produce four
newline fragments; after collapsing, exactly one blank line remains
between `a` and `b`, so the result is `"a\n\nb"` (with no two adjacent
blank lines). -/
theorem block_newlines_amended :
    (runEvents (tokenize ("<p>a</p><p>b</p>".data))).parts =
      [['\n'], ['a'], ['\n'], ['\n'], ['b'], ['\n']] ∧
    parse_answer_text ("<p>a</p><p>b</p>".data) = "a\n\nb".data ∧
    noAdjBlank (splitOnNL (parse_answer_text ("<p>a</p><p>b</p>".data))) =
      true := by
  refine ⟨by decide, by decide, by decide⟩

/-! ### Pagination (claims C6 and C7) -/

theorem yieldCount_req_cons (o l : Nat) (evs : List FEvent) :
    yieldCount (FEvent.req o l :: evs) = yieldCount evs := by
  simp [yieldCount, isYield]

theorem yieldCount_append (a b : List FEvent) :
    yieldCount (a ++ b) = yieldCount a + yieldCount b := by
  simp [yieldCount, List.filter_append]

theorem pageYields_le (limit : Nat) :
    ∀ (l : List RawAnswer) (c : Nat), c ≤ (pageYields l c limit).2 := by
  intro l
  induction l with
  | nil => intro c; simp [pageYields]
  | cons a rest ih =>
    intro c
    simp only [pageYields]
    split_ifs with h
    · omega
    · have := ih (c + 1)
      simp only []
      omega

theorem pageYields_count (limit : Nat) :
    ∀ (l : List RawAnswer) (c : Nat),
      (pageYields l c limit).2 = c + yieldCount (pageYields l c limit).1 := by
  intro l
  induction l with
  | nil => intro c; simp [pageYields, yieldCount]
  | cons a rest ih =>
    intro c
    simp only [pageYields]
    split_ifs with h
    · simp [yieldCount, isYield]
    · have := ih (c + 1)
      simp only [yieldCount, List.filter_cons, isYield, if_pos,
        List.length_cons] at this ⊢
      omega

theorem pageYields_bound (limit : Nat) :
    ∀ (l : List RawAnswer) (c : Nat), c < limit →
      (pageYields l c limit).2 ≤ limit := by
  intro l
  induction l with
  | nil => intro c h; simp [pageYields]; omega
  | cons a rest ih =>
    intro c h
    simp only [pageYields]
    split_ifs with h1
    · omega
    · exact ih (c + 1) (by omega)

theorem fetchGo_yieldCount (server : Nat → Nat → Payload) (limit : Nat) :
    ∀ (fuel c o : Nat),
      yieldCount (fetchGo server limit fuel c o) ≤ limit - c := by
  intro fuel
  induction fuel with
  | zero => intro c o; simp [fetchGo, yieldCount]
  | succ fuel ih =>
    intro c o
    by_cases hc : c < limit
    · by_cases hd : (server o (min DEFAULT_PAGE_SIZE (limit - c))).data = []
      · simp [fetchGo, hc, hd, yieldCount, isYield]
      · have hcount :=
          pageYields_count limit
            (server o (min DEFAULT_PAGE_SIZE (limit - c))).data c
        have hbound :=
          pageYields_bound limit
            (server o (min DEFAULT_PAGE_SIZE (limit - c))).data c hc
        cases he : (server o (min DEFAULT_PAGE_SIZE (limit - c))).is_end with
        | true =>
          simp only [fetchGo, if_pos hc, if_neg hd, he, if_pos,
            List.append_nil, yieldCount_req_cons]
          omega
        | false =>
          have hrec :=
            ih (pageYields (server o (min DEFAULT_PAGE_SIZE (limit - c))).data
              c limit).2 (o + min DEFAULT_PAGE_SIZE (limit - c))
          simp only [fetchGo, if_pos hc, if_neg hd, he, Bool.false_eq_true,
            if_false, yieldCount_req_cons, yieldCount_append]
          omega
    · simp [fetchGo, hc, yieldCount]

/-- C6 — Pagination limit enforcement: the yielded-record count never
exceeds `limit`; the first request is issued at offset 0 with page size
`min(20, limit)`; and against an unlimited transport with `limit = 25`
the client issues requests `(0, 20)` and `(20, 5)` — the final request's
page size is 5 — and yields exactly 25 records. -/
theorem pagination_limit :
    (∀ (server : Nat → Nat → Payload) (limit : Nat),
      yieldCount (fetch_answers server limit) ≤ limit) ∧
    (∀ (server : Nat → Nat → Payload) (limit : Nat), 0 < limit →
      (fetch_answers server limit).head? =
        some (FEvent.req 0 (min DEFAULT_PAGE_SIZE limit))) ∧
    reqList (fetch_answers unlimitedServer 25) = [(0, 20), (20, 5)] ∧
    yieldCount (fetch_answers unlimitedServer 25) = 25 := by
  refine ⟨?_, ?_, by decide, by decide⟩
  · intro server limit
    have h := fetchGo_yieldCount server limit (limit + 1) 0 0
    simp only [fetch_answers]
    omega
  · intro server limit h
    simp [fetch_answers, fetchGo, h]

theorem pagination_limit_witness :
    (fetch_answers unlimitedServer 25).head? =
      some (FEvent.req 0 (min DEFAULT_PAGE_SIZE 25)) :=
  pagination_limit.2.1 unlimitedServer 25 (by decide)

/-- C7 — Pagination termination: against a transport returning pages of
20 until an empty page at offset 40, `fetch_answers` with `limit = 1000`
issues exactly the three requests `(0,20)`, `(20,20)`, `(40,20)` and
yields exactly 40 records; and the loop stops — issuing no further
requests — as soon as the first stop condition holds: collected count at
`limit` (no request at all), empty page (the trace ends right after that
request), or `paging.is_end` set (the trace ends after that page's
yields). -/
theorem pagination_termination :
    reqList (fetch_answers server40 1000) = [(0, 20), (20, 20), (40, 20)] ∧
    yieldCount (fetch_answers server40 1000) = 40 ∧
    (∀ (server : Nat → Nat → Payload) (limit fuel c o : Nat), ¬ c < limit →
      fetchGo server limit (fuel + 1) c o = []) ∧
    (∀ (server : Nat → Nat → Payload) (limit fuel c o : Nat), c < limit →
      (server o (min DEFAULT_PAGE_SIZE (limit - c))).data = [] →
      fetchGo server limit (fuel + 1) c o =
        [FEvent.req o (min DEFAULT_PAGE_SIZE (limit - c))]) ∧
    (∀ (server : Nat → Nat → Payload) (limit fuel c o : Nat), c < limit →
      (server o (min DEFAULT_PAGE_SIZE (limit - c))).data ≠ [] →
      (server o (min DEFAULT_PAGE_SIZE (limit - c))).is_end = true →
      fetchGo server limit (fuel + 1) c o =
        FEvent.req o (min DEFAULT_PAGE_SIZE (limit - c)) ::
          (pageYields (server o (min DEFAULT_PAGE_SIZE (limit - c))).data c
            limit).1) := by
  refine ⟨by decide, by decide, ?_, ?_, ?_⟩
  · intro server limit fuel c o h
    simp [fetchGo, h]
  · intro server limit fuel c o hc hd
    simp [fetchGo, hc, hd]
  · intro server limit fuel c o hc hd he
    simp [fetchGo, hc, hd, he]

theorem pagination_termination_witness :
    fetchGo server40 5 1 5 0 = [] :=
  pagination_termination.2.2.1 server40 5 0 5 0 (by decide)

/-! ### Post-processing normal form (claim C4)

The normal form of `get_text` holds for *every* fragment list, so it holds
for every input of `parse_answer_text` regardless of tokenization. -/

theorem headSpace_dropWhile (l : List Char) :
    headSpace (l.dropWhile pyIsSpace) = false := by
  induction l with
  | nil => rfl
  | cons c t ih =>
    by_cases h : pyIsSpace c
    · simpa [List.dropWhile, h] using ih
    · simp [List.dropWhile, h, headSpace]

theorem dropWhile_of_headSpace_false (l : List Char)
    (h : headSpace l = false) : l.dropWhile pyIsSpace = l := by
  cases l with
  | nil => rfl
  | cons c t =>
    simp only [headSpace] at h
    simp [List.dropWhile, h]

theorem rstrip_exists_append (l : List Char) : ∃ w, l = rstrip l ++ w := by
  refine ⟨(l.reverse.takeWhile pyIsSpace).reverse, ?_⟩
  rw [rstrip]
  conv_lhs =>
    rw [← List.reverse_reverse l,
      ← List.takeWhile_append_dropWhile (p := pyIsSpace) (l := l.reverse)]
  rw [List.reverse_append]

theorem headSpace_rstrip (l : List Char) (h : headSpace l = false) :
    headSpace (rstrip l) = false := by
  obtain ⟨w, hw⟩ := rstrip_exists_append l
  cases hrs : rstrip l with
  | nil => simp [headSpace]
  | cons c t =>
    rw [hrs, List.cons_append] at hw
    rw [hw] at h
    simpa [headSpace] using h

theorem headSpace_reverse_pyStrip (l : List Char) :
    headSpace (pyStrip l).reverse = false := by
  rw [pyStrip, List.reverse_reverse]
  exact headSpace_dropWhile _

theorem headSpace_pyStrip (l : List Char) :
    headSpace (pyStrip l) = false := by
  have h : pyStrip l = rstrip (l.dropWhile pyIsSpace) := rfl
  rw [h]
  exact headSpace_rstrip _ (headSpace_dropWhile l)

theorem pyStrip_of_stripped (l : List Char) (h1 : headSpace l = false)
    (h2 : headSpace l.reverse = false) : pyStrip l = l := by
  rw [pyStrip, dropWhile_of_headSpace_false l h1,
    dropWhile_of_headSpace_false l.reverse h2, List.reverse_reverse]

theorem pyStrip_idem (l : List Char) : pyStrip (pyStrip l) = pyStrip l :=
  pyStrip_of_stripped _ (headSpace_pyStrip l) (headSpace_reverse_pyStrip l)

theorem mem_pyStrip {l : List Char} {c : Char} (h : c ∈ pyStrip l) :
    c ∈ l := by
  rw [pyStrip, List.mem_reverse] at h
  have h1 := (List.dropWhile_sublist (l := (l.dropWhile pyIsSpace).reverse)
    (p := pyIsSpace)).subset h
  rw [List.mem_reverse] at h1
  exact (List.dropWhile_sublist (l := l) (p := pyIsSpace)).subset h1

theorem splitlinesGo_no_break :
    ∀ (l acc : List Char), (∀ c ∈ acc, isLineBreak c = false) →
      ∀ s ∈ splitlinesGo l acc, ∀ c ∈ s, isLineBreak c = false := by
  intro l acc
  induction l, acc using splitlinesGo.induct with
  | case1 =>
    intro hacc s hs
    simp [splitlinesGo] at hs
  | case2 acc hne =>
    intro hacc s hs c hc
    simp only [splitlinesGo, if_neg hne, List.mem_singleton] at hs
    subst hs
    exact hacc c (List.mem_reverse.mp hc)
  | case3 rest acc ih =>
    intro hacc s hs c hc
    simp only [splitlinesGo] at hs
    rcases List.mem_cons.mp hs with h | h
    · subst h; exact hacc c (List.mem_reverse.mp hc)
    · exact ih (by intro x hx; simp at hx) s h c hc
  | case4 ch rest acc hpat hbr ih =>
    intro hacc s hs c hc
    rw [splitlinesGo] at hs
    · rw [if_pos hbr] at hs
      rcases List.mem_cons.mp hs with h | h
      · subst h; exact hacc c (List.mem_reverse.mp hc)
      · exact ih (by intro x hx; simp at hx) s h c hc
    · exact hpat
  | case5 ch rest acc hpat hbr ih =>
    intro hacc s hs c hc
    rw [splitlinesGo] at hs
    · rw [if_neg hbr] at hs
      refine ih ?_ s hs c hc
      intro x hx
      rcases List.mem_cons.mp hx with h | h
      · subst h; simpa using hbr
      · exact hacc x h
    · exact hpat

theorem pySplitlines_no_break {t : List Char} {s : List Char}
    (hs : s ∈ pySplitlines t) : ∀ c ∈ s, isLineBreak c = false :=
  splitlinesGo_no_break t [] (by intro x hx; simp at hx) s hs

theorem noAdjBlank_cons (x : List Char) (ys : List (List Char)) :
    noAdjBlank (x :: ys) =
      ((!(x.isEmpty && headBlank ys)) && noAdjBlank ys) := by
  cases ys with
  | nil => simp [noAdjBlank, headBlank]
  | cons y r => simp [noAdjBlank, headBlank]

theorem collapseBlanks_props :
    ∀ (ls : List (List Char)) (b : Bool),
      noAdjBlank (collapseBlanks ls b) = true ∧
      (b = true → headBlank (collapseBlanks ls b) = false) := by
  intro ls
  induction ls with
  | nil => intro b; simp [collapseBlanks, noAdjBlank, headBlank]
  | cons line rest ih =>
    intro b
    simp only [collapseBlanks]
    by_cases hb : (line.isEmpty && b) = true
    · rw [if_pos hb]
      obtain ⟨hline, hbtrue⟩ := Bool.and_eq_true_iff.mp hb
      exact ⟨(ih b).1, fun _ => (ih b).2 hbtrue⟩
    · rw [if_neg hb]
      obtain ⟨h1, h2⟩ := ih line.isEmpty
      constructor
      · rw [noAdjBlank_cons]
        by_cases hle : line.isEmpty = true
        · rw [hle] at h1 h2
          simp [h1, h2 rfl, hle]
        · have hle' : line.isEmpty = false := Bool.eq_false_iff.mpr hle
          rw [hle'] at h1
          simp [h1, hle']
      · intro hbtrue
        subst hbtrue
        simp only [Bool.and_true] at hb
        simp only [headBlank]
        exact Bool.eq_false_iff.mpr hb

theorem collapseBlanks_mem :
    ∀ (ls : List (List Char)) (b : Bool) (x : List Char),
      x ∈ collapseBlanks ls b → x ∈ ls := by
  intro ls
  induction ls with
  | nil => intro b x hx; simp [collapseBlanks] at hx
  | cons line rest ih =>
    intro b x hx
    simp only [collapseBlanks] at hx
    by_cases hb : (line.isEmpty && b) = true
    · rw [if_pos hb] at hx
      exact List.mem_cons_of_mem _ (ih b x hx)
    · rw [if_neg hb] at hx
      rcases List.mem_cons.mp hx with h | h
      · exact h ▸ List.mem_cons_self _ _
      · exact List.mem_cons_of_mem _ (ih line.isEmpty x h)

theorem splitOnNL_no_nl (l : List Char) (h : ∀ c ∈ l, c ≠ '\n') :
    splitOnNL l = [l] := by
  induction l with
  | nil => rfl
  | cons c r ih =>
    have hc : c ≠ '\n' := h c (List.mem_cons_self _ _)
    have hr := ih (fun x hx => h x (List.mem_cons_of_mem _ hx))
    simp only [splitOnNL, if_neg hc, hr]

theorem splitOnNL_append (a t : List Char) (h : ∀ c ∈ a, c ≠ '\n') :
    splitOnNL (a ++ '\n' :: t) = a :: splitOnNL t := by
  induction a with
  | nil => simp [splitOnNL]
  | cons c r ih =>
    have hc : c ≠ '\n' := h c (List.mem_cons_self _ _)
    have hr := ih (fun x hx => h x (List.mem_cons_of_mem _ hx))
    simp only [List.cons_append, splitOnNL, if_neg hc]
    rw [show r.append ('\n' :: t) = r ++ '\n' :: t from rfl, hr]

theorem joinNL_concat (z : List Char) :
    ∀ ms : List (List Char), ms ≠ [] →
      joinNL (ms ++ [z]) = joinNL ms ++ '\n' :: z := by
  intro ms
  induction ms with
  | nil => intro h; exact absurd rfl h
  | cons m rest ih =>
    intro _
    cases rest with
    | nil => simp [joinNL]
    | cons m2 r2 =>
      have h2 := ih (by simp)
      rw [List.cons_append]
      rw [show joinNL (m :: (m2 :: r2 ++ [z])) =
        m ++ '\n' :: joinNL (m2 :: r2 ++ [z]) from by
          cases r2 <;> rfl]
      rw [show (m2 :: r2 ++ [z] : List (List Char)) =
        (m2 :: r2) ++ [z] from rfl, h2]
      simp [joinNL]

theorem joinNL_reverse :
    ∀ ls : List (List Char),
      (joinNL ls).reverse = joinNL ((ls.map List.reverse).reverse) := by
  intro ls
  induction ls with
  | nil => rfl
  | cons x rest ih =>
    cases rest with
    | nil => simp [joinNL]
    | cons y r =>
      have hne : ((y :: r).map List.reverse).reverse ≠ [] := by simp
      rw [show joinNL (x :: y :: r) = x ++ '\n' :: joinNL (y :: r) from rfl]
      rw [List.reverse_append, List.reverse_cons, ih]
      rw [show ((x :: y :: r).map List.reverse).reverse =
        ((y :: r).map List.reverse).reverse ++ [x.reverse] from by simp]
      rw [joinNL_concat x.reverse _ hne]
      simp

theorem headSpace_joinNL_cons (y : List Char) (r : List (List Char))
    (hy : y ≠ []) (h : headSpace y = false) :
    headSpace (joinNL (y :: r)) = false := by
  cases r with
  | nil => exact h
  | cons z r2 =>
    rw [show joinNL (y :: z :: r2) = y ++ '\n' :: joinNL (z :: r2) from rfl]
    cases y with
    | nil => exact absurd rfl hy
    | cons c t => simpa [headSpace, List.cons_append] using h

theorem dropWhile_joinNL (ls : List (List Char))
    (hstr : ∀ s ∈ ls, headSpace s = false)
    (hadj : noAdjBlank ls = true) :
    (joinNL ls).dropWhile pyIsSpace = joinNL (dropLeadBlank ls) := by
  match ls with
  | [] => rfl
  | [] :: r =>
    cases r with
    | nil => rfl
    | cons y r2 =>
      have hy : y ≠ [] := by
        rw [noAdjBlank_cons] at hadj
        obtain ⟨h1, _⟩ := Bool.and_eq_true_iff.mp hadj
        simp only [List.isEmpty_nil, Bool.true_and, headBlank,
          Bool.not_eq_true'] at h1
        exact fun hcon => by simp [hcon] at h1
      have hHy := hstr y (by simp)
      rw [show joinNL ([] :: y :: r2) = '\n' :: joinNL (y :: r2) from rfl]
      rw [show ('\n' :: joinNL (y :: r2)).dropWhile pyIsSpace =
        (joinNL (y :: r2)).dropWhile pyIsSpace from by
          simp [List.dropWhile_cons, show pyIsSpace '\n' = true from rfl]]
      rw [dropWhile_of_headSpace_false _ (headSpace_joinNL_cons y r2 hy hHy)]
      rfl
  | (c :: t) :: r =>
    have hH := hstr (c :: t) (by simp)
    rw [dropWhile_of_headSpace_false _
      (headSpace_joinNL_cons (c :: t) r (by simp) hH)]
    rfl

theorem dropLeadBlank_mem {ls : List (List Char)} {x : List Char}
    (h : x ∈ dropLeadBlank ls) : x ∈ ls := by
  match ls with
  | [] => exact h
  | [] :: r => exact List.mem_cons_of_mem _ h
  | (c :: t) :: r => exact h

theorem noAdjBlank_tail {x : List Char} {r : List (List Char)}
    (h : noAdjBlank (x :: r) = true) : noAdjBlank r = true := by
  rw [noAdjBlank_cons] at h
  exact (Bool.and_eq_true_iff.mp h).2

theorem noAdjBlank_dropLead {ls : List (List Char)}
    (h : noAdjBlank ls = true) : noAdjBlank (dropLeadBlank ls) = true := by
  match ls with
  | [] => exact h
  | [] :: r => exact noAdjBlank_tail h
  | (c :: t) :: r => exact h

theorem dropTrailBlank_cons₂ (x y : List Char) (r : List (List Char)) :
    dropTrailBlank (x :: y :: r) = x :: dropTrailBlank (y :: r) := rfl

theorem dropTrail_concat_blank :
    ∀ init : List (List Char), dropTrailBlank (init ++ [[]]) = init := by
  intro init
  induction init with
  | nil => rfl
  | cons x rest ih =>
    cases rest with
    | nil => simp [dropTrailBlank]
    | cons y r2 =>
      rw [show ((x :: y :: r2 : List (List Char)) ++ [[]]) =
        x :: (y :: (r2 ++ [[]])) from rfl]
      rw [dropTrailBlank_cons₂]
      rw [show (y :: (r2 ++ [[]]) : List (List Char)) =
        (y :: r2) ++ [[]] from rfl, ih]

theorem dropTrail_concat_ne (z : List Char) (hz : z ≠ []) :
    ∀ init : List (List Char), dropTrailBlank (init ++ [z]) = init ++ [z] := by
  intro init
  induction init with
  | nil =>
    simp only [List.nil_append, dropTrailBlank]
    rw [if_neg (by simpa using hz)]
  | cons x rest ih =>
    cases rest with
    | nil =>
      rw [show ((x :: [] : List (List Char)) ++ [z]) = x :: (([] : List (List Char)) ++ [z]) from rfl]
      rw [show (([] : List (List Char)) ++ [z]) = [z] from rfl]
      rw [show dropTrailBlank (x :: [z]) = x :: dropTrailBlank [z] from rfl]
      rw [show dropTrailBlank [z] = [z] from by simpa using ih]
    | cons y r2 =>
      rw [show ((x :: y :: r2 : List (List Char)) ++ [z]) =
        x :: (y :: (r2 ++ [z])) from rfl]
      rw [dropTrailBlank_cons₂]
      rw [show (y :: (r2 ++ [z]) : List (List Char)) =
        (y :: r2) ++ [z] from rfl, ih]

theorem dropTrailBlank_mem :
    ∀ {ls : List (List Char)} {x : List Char},
      x ∈ dropTrailBlank ls → x ∈ ls := by
  intro ls
  induction ls with
  | nil => intro x h; exact h
  | cons y rest ih =>
    intro x h
    cases rest with
    | nil =>
      simp only [dropTrailBlank] at h
      split_ifs at h
      · simp at h
      · exact h
    | cons z r =>
      rw [dropTrailBlank_cons₂] at h
      rcases List.mem_cons.mp h with h | h
      · exact h ▸ List.mem_cons_self _ _
      · exact List.mem_cons_of_mem _ (ih h)

theorem headBlank_dropTrail_cons (y : List Char) (r : List (List Char)) :
    dropTrailBlank (y :: r) = [] ∨
      ∃ r2, dropTrailBlank (y :: r) = y :: r2 := by
  cases r with
  | nil =>
    simp only [dropTrailBlank]
    split_ifs with h
    · exact Or.inl rfl
    · exact Or.inr ⟨[], rfl⟩
  | cons z r2 => exact Or.inr ⟨dropTrailBlank (z :: r2), rfl⟩

theorem noAdjBlank_dropTrail :
    ∀ ls : List (List Char), noAdjBlank ls = true →
      noAdjBlank (dropTrailBlank ls) = true := by
  intro ls
  induction ls with
  | nil => intro h; exact h
  | cons x rest ih =>
    intro h
    cases rest with
    | nil =>
      simp only [dropTrailBlank]
      split_ifs <;> simp [noAdjBlank]
    | cons y r =>
      rw [dropTrailBlank_cons₂]
      rw [noAdjBlank_cons] at h
      obtain ⟨h1, h2⟩ := Bool.and_eq_true_iff.mp h
      rw [noAdjBlank_cons]
      refine Bool.and_eq_true_iff.mpr ⟨?_, ih h2⟩
      rcases headBlank_dropTrail_cons y r with hd | ⟨r2, hd⟩
      · simp [hd, headBlank]
      · rw [hd]
        simpa [headBlank] using h1

theorem isEmpty_reverse (l : List Char) : l.reverse.isEmpty = l.isEmpty := by
  cases l with
  | nil => rfl
  | cons c t => simp [List.reverse_cons, List.isEmpty_eq_false_iff_exists_mem]

theorem noAdjBlank_iff_chain :
    ∀ ls : List (List Char),
      noAdjBlank ls = true ↔
        List.Chain' (fun a b : List Char => (a.isEmpty && b.isEmpty) = false)
          ls := by
  intro ls
  induction ls with
  | nil => simp [noAdjBlank]
  | cons x rest ih =>
    cases rest with
    | nil => simp [noAdjBlank]
    | cons y r =>
      rw [List.chain'_cons]
      rw [show noAdjBlank (x :: y :: r) =
        ((!(x.isEmpty && y.isEmpty)) && noAdjBlank (y :: r)) from rfl]
      rw [Bool.and_eq_true_iff, Bool.not_eq_true']
      exact and_congr Iff.rfl ih

theorem noAdjBlank_reverse_map (ls : List (List Char))
    (h : noAdjBlank ls = true) :
    noAdjBlank ((ls.map List.reverse).reverse) = true := by
  rw [noAdjBlank_iff_chain] at h ⊢
  rw [List.chain'_reverse, List.chain'_map]
  refine List.Chain'.imp ?_ h
  intro a b hab
  show (b.reverse.isEmpty && a.reverse.isEmpty) = false
  rw [isEmpty_reverse, isEmpty_reverse, Bool.and_comm]
  exact hab

theorem dropLead_reverse_map (ls : List (List Char)) :
    dropLeadBlank ((ls.map List.reverse).reverse) =
      ((dropTrailBlank ls).map List.reverse).reverse := by
  induction ls using List.reverseRecOn with
  | nil => rfl
  | append_singleton init z _ =>
    have hsplit : ((init ++ [z]).map List.reverse).reverse =
        z.reverse :: (init.map List.reverse).reverse := by simp
    by_cases hz : z = []
    · subst hz
      rw [hsplit, dropTrail_concat_blank]
      rfl
    · rw [hsplit, dropTrail_concat_ne z hz, hsplit]
      cases hzr : z.reverse with
      | nil => exact absurd (by simpa using congrArg List.reverse hzr) hz
      | cons a b => rfl

theorem pyStrip_joinNL (ls : List (List Char))
    (hstr : ∀ s ∈ ls, pyStrip s = s) (hadj : noAdjBlank ls = true) :
    pyStrip (joinNL ls) =
      joinNL (dropTrailBlank (dropLeadBlank ls)) := by
  have hhead : ∀ s ∈ ls, headSpace s = false := fun s hs => by
    have h := headSpace_pyStrip s
    rwa [hstr s hs] at h
  have hrev : ∀ s ∈ ls, headSpace s.reverse = false := fun s hs => by
    have h := headSpace_reverse_pyStrip s
    rwa [hstr s hs] at h
  have hadj1 : noAdjBlank (dropLeadBlank ls) = true := noAdjBlank_dropLead hadj
  have hheadR : ∀ s ∈ ((dropLeadBlank ls).map List.reverse).reverse,
      headSpace s = false := by
    intro s hs
    rw [List.mem_reverse, List.mem_map] at hs
    obtain ⟨a, ha, rfl⟩ := hs
    exact hrev a (dropLeadBlank_mem ha)
  have hadjR : noAdjBlank (((dropLeadBlank ls).map List.reverse).reverse) =
      true := noAdjBlank_reverse_map _ hadj1
  rw [pyStrip, dropWhile_joinNL ls hhead hadj, joinNL_reverse (dropLeadBlank ls)]
  rw [dropWhile_joinNL _ hheadR hadjR, dropLead_reverse_map (dropLeadBlank ls)]
  rw [← joinNL_reverse (dropTrailBlank (dropLeadBlank ls)),
    List.reverse_reverse]

theorem splitOnNL_joinNL :
    ∀ ls : List (List Char), ls ≠ [] →
      (∀ s ∈ ls, ∀ c ∈ s, c ≠ '\n') → splitOnNL (joinNL ls) = ls := by
  intro ls
  induction ls with
  | nil => intro h; exact absurd rfl h
  | cons x rest ih =>
    intro _ hnl
    cases rest with
    | nil => exact splitOnNL_no_nl x (hnl x (by simp))
    | cons y r =>
      rw [show joinNL (x :: y :: r) = x ++ '\n' :: joinNL (y :: r) from rfl]
      rw [splitOnNL_append x _ (hnl x (by simp))]
      rw [ih (by simp) (fun s hs => hnl s (List.mem_cons_of_mem _ hs))]

theorem get_text_normal (parts : List (List Char)) :
    noAdjBlank (splitOnNL (get_text parts)) = true ∧
    (∀ l ∈ splitOnNL (get_text parts), pyStrip l = l) ∧
    pyStrip (get_text parts) = get_text parts := by
  have hget : get_text parts =
      pyStrip (joinNL (collapseBlanks
        ((pySplitlines parts.flatten).map pyStrip) false)) := rfl
  have hfil_str : ∀ s ∈ collapseBlanks
      ((pySplitlines parts.flatten).map pyStrip) false, pyStrip s = s := by
    intro s hs
    have hmem := collapseBlanks_mem _ false s hs
    rw [List.mem_map] at hmem
    obtain ⟨a, _, rfl⟩ := hmem
    exact pyStrip_idem a
  have hfil_nl : ∀ s ∈ collapseBlanks
      ((pySplitlines parts.flatten).map pyStrip) false,
      ∀ c ∈ s, c ≠ '\n' := by
    intro s hs c hc hceq
    have hmem := collapseBlanks_mem _ false s hs
    rw [List.mem_map] at hmem
    obtain ⟨a, ha, rfl⟩ := hmem
    have hbr := pySplitlines_no_break ha c (mem_pyStrip hc)
    rw [hceq] at hbr
    exact absurd hbr (by decide)
  have hfil_adj : noAdjBlank (collapseBlanks
      ((pySplitlines parts.flatten).map pyStrip) false) = true :=
    (collapseBlanks_props _ false).1
  have hmain : get_text parts = joinNL (dropTrailBlank (dropLeadBlank
      (collapseBlanks ((pySplitlines parts.flatten).map pyStrip) false))) := by
    rw [hget, pyStrip_joinNL _ hfil_str hfil_adj]
  have hls3_mem : ∀ s ∈ dropTrailBlank (dropLeadBlank
      (collapseBlanks ((pySplitlines parts.flatten).map pyStrip) false)),
      s ∈ collapseBlanks ((pySplitlines parts.flatten).map pyStrip) false :=
    fun s hs => dropLeadBlank_mem (dropTrailBlank_mem hs)
  have hls3_adj : noAdjBlank (dropTrailBlank (dropLeadBlank
      (collapseBlanks ((pySplitlines parts.flatten).map pyStrip) false))) =
      true := noAdjBlank_dropTrail _ (noAdjBlank_dropLead hfil_adj)
  by_cases h3 : dropTrailBlank (dropLeadBlank
      (collapseBlanks ((pySplitlines parts.flatten).map pyStrip) false)) = []
  · rw [hmain, h3]
    refine ⟨by decide, ?_, rfl⟩
    intro l hl
    rw [show joinNL [] = ([] : List Char) from rfl] at hl
    rw [show splitOnNL [] = [[]] from rfl] at hl
    rcases List.mem_singleton.mp hl with rfl
    rfl
  · have hsplit := splitOnNL_joinNL _ h3
      (fun s hs c hc => hfil_nl s (hls3_mem s hs) c hc)
    refine ⟨?_, ?_, ?_⟩
    · rw [hmain, hsplit]
      exact hls3_adj
    · rw [hmain, hsplit]
      intro l hl
      exact hfil_str l (hls3_mem l hl)
    · rw [hget]
      exact pyStrip_idem _

/-- C4 — Post-processing normal form: for every input, the extractor's
output has no two adjacent empty lines, every line of it is stripped of
leading and trailing whitespace, and the whole result carries no leading
or trailing whitespace; in particular the output for
`"<p>a</p><br><br><p>b</p>"` has no two consecutive blank lines. -/
theorem postprocessing_normal_form (html : List Char) :
    noAdjBlank (splitOnNL (parse_answer_text html)) = true ∧
    (∀ l ∈ splitOnNL (parse_answer_text html), pyStrip l = l) ∧
    pyStrip (parse_answer_text html) = parse_answer_text html ∧
    noAdjBlank (splitOnNL (parse_answer_text
      ("<p>a</p><br><br><p>b</p>".data))) = true := by
  obtain ⟨h1, h2, h3⟩ := get_text_normal (runEvents (tokenize html)).parts
  exact ⟨h1, h2, h3, by decide⟩

theorem postprocessing_normal_form_witness :
    pyStrip ("a".data) = "a".data :=
  (postprocessing_normal_form ("<p>a</p>".data)).2.1 ("a".data) (by decide)

end Zhihu
